import Mathlib

/-!
Verification of the lattice-update core of the 2D Ising model simulator
(`lattice_functions.py`): neighbour lookup under periodic boundary
conditions, the local Hamiltonian, the Metropolis sweep, and the
magnetisation / energy observables.

Modelling conventions:
* a lattice is a list of rows of rational spin values (Python floats and
  ints are embedded as rationals);
* Python indexing `lattice[a, b]` with possibly negative `a`, `b` is
  `pyGet`, which adds the corresponding length to a negative index once
  (the only negative indices the code produces are `-1`);
* an invalid `magtype` leaves the coupling `J` unbound in `ham_calc`, so
  the call raises; this is modelled by `Option`/`Except` failure values;
* the shared numpy random generator is modelled by two explicit streams
  (`sites` for `randint(0, n)` draws, `rands` for `rand()` draws) together
  with positions `si`, `ri` recording how many draws of each stream have
  been consumed; `randint(0, n)` at position `k` yields `sites k % n`;
* `math.e ** x` is `Real.exp x`.
-/

namespace Ising

abbrev Lattice := List (List ℚ)

/-- `lattice.shape[0]`: the number of rows. -/
def shape0 (L : Lattice) : ℕ := L.length

/-- `lattice.shape[1]`: the number of columns (length of the first row). -/
def shape1 (L : Lattice) : ℕ := (L.headD []).length

/-- Python index semantics for an index that may be negative: a negative
index has the length added once (`-1` denotes the last element). -/
def pyIdx (len : ℕ) (k : ℤ) : ℕ := (if k < 0 then k + (len : ℤ) else k).toNat

/-- Row access `lattice[a]` with Python index semantics. -/
def pyRow (L : Lattice) (a : ℤ) : List ℚ := L.getD (pyIdx L.length a) []

/-- Element access `lattice[a, b]` with Python index semantics. -/
def pyGet (L : Lattice) (a b : ℤ) : ℚ :=
  (pyRow L a).getD (pyIdx (pyRow L a).length b) 0

/-- Plain nonnegative-index access, used to state properties. -/
def cell (L : Lattice) (i j : ℕ) : ℚ := (L.getD i []).getD j 0

/-- `nearest_neighbours(lattice, i, j)`: the values of the four nearest
neighbours `[top, bottom, left, right]` of site `(i, j)` under periodic
boundary conditions.  `top` and `left` rely on Python negative indexing
at `i = 0` / `j = 0`; `bottom` and `right` wrap explicitly. -/
def nearest_neighbours (lattice : Lattice) (i j : ℕ) : List ℚ :=
  let top := pyGet lattice ((i : ℤ) - 1) (j : ℤ)
  let left := pyGet lattice (i : ℤ) ((j : ℤ) - 1)
  let bottom :=
    if i = shape0 lattice - 1 then pyGet lattice 0 (j : ℤ)
    else pyGet lattice ((i : ℤ) + 1) (j : ℤ)
  let right :=
    if j = shape1 lattice - 1 then pyGet lattice (i : ℤ) 0
    else pyGet lattice (i : ℤ) ((j : ℤ) + 1)
  [top, bottom, left, right]

/-- The coupling constant `J` selected by `magtype` in `ham_calc`;
`none` when `magtype` is neither recognised tag (in which case the
Python code raises with `J` unbound). -/
def magJ (magtype : String) : Option ℚ :=
  if magtype = "ferro" then some 1
  else if magtype = "antiferro" then some (-1)
  else none

/-- `ham_calc(particle, neighbours, h, magtype)`: the local Hamiltonian
of one site, `Σ (-J * particle * nb) - h * particle`; `none` models the
raise on an unrecognised `magtype`. -/
def ham_calc (particle : ℚ) (neighbours : List ℚ) (h : ℚ)
    (magtype : String := "ferro") : Option ℚ :=
  match magJ magtype with
  | none => none
  | some J =>
    let ham := neighbours.foldl (fun acc v => acc + (-J * particle * v)) (0 : ℚ)
    some (ham - h * particle)

/-- The nested `p_flip(del_E)` of `update_lattice` (with its captured
temperature made explicit): Metropolis acceptance probability with
Boltzmann constant `k = 1`. -/
noncomputable def p_flip (T del_E : ℝ) : ℝ :=
  if del_E < 0 then 1 else Real.exp (-1 * del_E / ((1 : ℝ) * T))

/-- The in-place store `lattice[i, j] = v` (out-of-range indices leave
the lattice unchanged; the updater only produces in-range indices). -/
def setCell (L : Lattice) (i j : ℕ) (v : ℚ) : Lattice :=
  L.set i ((L.getD i []).set j v)

/-- State threaded through one call of `update_lattice`: the lattice
plus the positions reached in the two random streams. -/
structure UpdState where
  lat : Lattice
  si : ℕ
  ri : ℕ
deriving DecidableEq

/-- One trial iteration of the loop of `update_lattice`: draw a site
`(i, j)` (two `randint` draws), compute the energy difference of a flip,
and flip when the acceptance probability is `1.0` or exceeds a fresh
`rand()` draw (the `rand()` draw is skipped by short-circuit when the
probability is `1.0`).  An unrecognised `magtype` makes `ham_calc`
raise, modelled as `Except.error` carrying the state at the raise. -/
noncomputable def update_step (T : ℝ) (h : ℚ) (magtype : String)
    (sites : ℕ → ℕ) (rands : ℕ → ℝ) (st : UpdState) :
    Except UpdState UpdState :=
  let n := shape0 st.lat
  let i := sites st.si % n
  let j := sites (st.si + 1) % n
  let particle := pyGet st.lat (i : ℤ) (j : ℤ)
  let neighbours := nearest_neighbours st.lat i j
  match ham_calc particle neighbours h magtype,
        ham_calc (-1 * particle) neighbours h magtype with
  | some ham, some ham_flip =>
    let del_E := ham_flip - ham
    let probability := p_flip T (del_E : ℝ)
    if probability = 1 then
      Except.ok ⟨setCell st.lat i j (-1 * particle), st.si + 2, st.ri⟩
    else if probability > rands st.ri then
      Except.ok ⟨setCell st.lat i j (-1 * particle), st.si + 2, st.ri + 1⟩
    else
      Except.ok ⟨st.lat, st.si + 2, st.ri + 1⟩
  | _, _ => Except.error ⟨st.lat, st.si + 2, st.ri⟩

/-- The loop `for num in range(0, N*2)` of `update_lattice`, as iterated
application of `update_step`. -/
noncomputable def update_iter (T : ℝ) (h : ℚ) (magtype : String)
    (sites : ℕ → ℕ) (rands : ℕ → ℝ) : ℕ → UpdState → Except UpdState UpdState
  | 0, st => Except.ok st
  | Nat.succ k, st =>
    match update_step T h magtype sites rands st with
    | Except.ok st' => update_iter T h magtype sites rands k st'
    | Except.error e => Except.error e

/-- `update_lattice(lattice, T, h, magtype)`: one Metropolis sweep of
`N * 2` trial iterations where `N = n * n`, starting at position `0` of
both random streams. -/
noncomputable def update_lattice (sites : ℕ → ℕ) (rands : ℕ → ℝ)
    (lattice : Lattice) (T : ℝ) (h : ℚ) (magtype : String := "ferro") :
    Except UpdState Lattice :=
  let n := shape0 lattice
  let N := n * n
  (update_iter T h magtype sites rands (N * 2) ⟨lattice, 0, 0⟩).map
    (fun st => st.lat)

/-- A sequence of `update_lattice` calls driven by an external loop;
call `k` uses the streams `sitesF k` and `randsF k`. -/
noncomputable def run_sweeps (sitesF : ℕ → ℕ → ℕ) (randsF : ℕ → ℕ → ℝ)
    (T : ℝ) (h : ℚ) (magtype : String) : ℕ → Lattice → Except UpdState Lattice
  | 0, L => Except.ok L
  | Nat.succ k, L =>
    match update_lattice (sitesF k) (randsF k) L T h magtype with
    | Except.ok L' => run_sweeps sitesF randsF T h magtype k L'
    | Except.error e => Except.error e

/-- `magnetisation(lattice)`: the per-site net magnetisation and its
square. -/
def magnetisation (lattice : Lattice) : ℚ × ℚ :=
  let n := shape0 lattice
  let mag := lattice.foldl (fun acc row => row.foldl (fun a c => a + c) acc) (0 : ℚ)
  let mag_persite := mag / (n : ℚ) ^ 2
  (mag_persite, mag_persite ^ 2)

/-- The accumulation step `E += ham_calc(lattice[i,j], neighbours, h,
magtype)` of `energy`; a raise inside `ham_calc` propagates as `none`. -/
def energyAdd (lattice : Lattice) (h : ℚ) (magtype : String) (i j : ℕ)
    (acc : Option ℚ) : Option ℚ :=
  match acc, ham_calc (pyGet lattice (i : ℤ) (j : ℤ))
      (nearest_neighbours lattice i j) h magtype with
  | some a, some v => some (a + v)
  | _, _ => none

/-- `energy(lattice, h, magtype)`: sum of `ham_calc` over all sites,
halved to correct bond double-counting, normalised per site; paired with
its square.  `none` models the raise on an unrecognised `magtype`. -/
def energy (lattice : Lattice) (h : ℚ) (magtype : String := "ferro") :
    Option (ℚ × ℚ) :=
  let n := shape0 lattice
  let E := (List.range n).foldl (fun acc (i : ℕ) =>
    (List.range n).foldl (fun acc2 (j : ℕ) =>
      energyAdd lattice h magtype i j acc2) acc) (some (0 : ℚ))
  E.map (fun e =>
    let e2 := e / 2
    let e_persite := e2 / (n : ℚ) ^ 2
    (e_persite, e_persite ^ 2))

/-- The all `+1` lattice of side `n` (the ferromagnetic ground state). -/
def allOnes (n : ℕ) : Lattice := List.replicate n (List.replicate n 1)

/-- Well-formedness of a spin lattice of side `n`: `n` rows, each of
length `n`, every cell `+1` or `-1`. -/
def latticeOK (n : ℕ) (L : Lattice) : Prop :=
  L.length = n ∧ (∀ row ∈ L, row.length = n) ∧
    ∀ row ∈ L, ∀ c ∈ row, c = 1 ∨ c = -1

instance (n : ℕ) (L : Lattice) : Decidable (latticeOK n L) := by
  unfold latticeOK; infer_instance

/-! ### Helper lemmas -/

lemma foldl_add_linear (c : ℚ) (l : List ℚ) (a : ℚ) :
    l.foldl (fun acc v => acc + c * v) a = a + c * l.sum := by
  induction l generalizing a with
  | nil => simp
  | cons x xs ih => simp [List.foldl_cons, ih, mul_add]; ring

lemma ham_calc_eq_some (magtype : String) (J : ℚ) (hJ : magJ magtype = some J)
    (particle : ℚ) (neighbours : List ℚ) (h : ℚ) :
    ham_calc particle neighbours h magtype =
      some (-J * particle * neighbours.sum - h * particle) := by
  simp only [ham_calc, hJ]
  rw [foldl_add_linear (-J * particle) neighbours 0, zero_add]

lemma ham_calc_eq_none {magtype : String} (hJ : magJ magtype = none)
    (particle : ℚ) (neighbours : List ℚ) (h : ℚ) :
    ham_calc particle neighbours h magtype = none := by
  simp [ham_calc, hJ]

/-! ### C1 -/

/-- C1: `ham_calc` returns `-J * spin * (sum of the four neighbour spins)
    - h * spin` with `J = 1` for `ferro` and `J = -1` for `antiferro`;
in particular, with `h = 0` and all four neighbours `+1`, a spin of `+1`
gives `-4` under `ferro` and `+4` under `antiferro`. -/
theorem C1_ham_calc_formula :
    (∀ s a b c d h : ℚ,
        ham_calc s [a, b, c, d] h "ferro" =
          some (-(1 : ℚ) * s * (a + b + c + d) - h * s)) ∧
    (∀ s a b c d h : ℚ,
        ham_calc s [a, b, c, d] h "antiferro" =
          some (-(-1 : ℚ) * s * (a + b + c + d) - h * s)) ∧
    magJ "ferro" = some 1 ∧ magJ "antiferro" = some (-1) ∧
    ham_calc 1 [1, 1, 1, 1] 0 "ferro" = some (-4) ∧
    ham_calc 1 [1, 1, 1, 1] 0 "antiferro" = some 4 := by
  refine ⟨?_, ?_, rfl, rfl, ?_, ?_⟩
  · intro s a b c d h
    rw [ham_calc_eq_some "ferro" 1 rfl]
    congr 1
    simp only [List.sum_cons, List.sum_nil]
    ring
  · intro s a b c d h
    rw [ham_calc_eq_some "antiferro" (-1) rfl]
    congr 1
    simp only [List.sum_cons, List.sum_nil]
    ring
  · rw [ham_calc_eq_some "ferro" 1 rfl]
    norm_num
  · rw [ham_calc_eq_some "antiferro" (-1) rfl]
    norm_num

/-! ### C10 -/

/-- C10: the `magtype` parameter of `ham_calc`, `update_lattice` and
`energy` defaults to `"ferro"` (coupling `J = +1`) when omitted. -/
theorem C10_magtype_defaults_ferro :
    (∀ (p : ℚ) (nb : List ℚ) (h : ℚ),
        ham_calc p nb h = ham_calc p nb h "ferro") ∧
    (∀ (sites : ℕ → ℕ) (rands : ℕ → ℝ) (L : Lattice) (T : ℝ) (h : ℚ),
        update_lattice sites rands L T h =
          update_lattice sites rands L T h "ferro") ∧
    (∀ (L : Lattice) (h : ℚ), energy L h = energy L h "ferro") ∧
    magJ "ferro" = some 1 := by
  exact ⟨fun _ _ _ => rfl, fun _ _ _ _ _ => rfl, fun _ _ => rfl, rfl⟩

/-! ### C2 -/

lemma pyIdx_natCast (len k : ℕ) : pyIdx len (k : ℤ) = k := by
  unfold pyIdx
  rw [if_neg (by omega)]
  omega

lemma pyIdx_nonneg (len : ℕ) (k : ℤ) (hk : 0 ≤ k) : pyIdx len k = k.toNat := by
  unfold pyIdx
  rw [if_neg (by omega)]

lemma pyIdx_pred_mod (n i : ℕ) (hn : 1 ≤ n) (hi : i < n) :
    pyIdx n ((i : ℤ) - 1) = (((i : ℤ) - 1) % (n : ℤ)).toNat := by
  unfold pyIdx
  rcases Nat.eq_zero_or_pos i with h0 | h1
  · subst h0
    rw [if_pos (by norm_num)]
    have e2 : ((0 : ℤ) - 1) % (n : ℤ) = ((n : ℤ) - 1) % (n : ℤ) := by
      conv_lhs => rw [show (0 : ℤ) - 1 = ((n : ℤ) - 1) + (n : ℤ) * (-1) by ring]
      rw [Int.add_mul_emod_self_left]
    have e1 : ((n : ℤ) - 1) % (n : ℤ) = (n : ℤ) - 1 :=
      Int.emod_eq_of_lt (by omega) (by omega)
    simp only [Nat.cast_zero]
    rw [e2, e1]
    omega
  · rw [if_neg (by omega)]
    rw [Int.emod_eq_of_lt (by omega) (by omega)]

lemma succ_mod_toNat (n i : ℕ) (hn : 1 ≤ n) (hi : i < n) :
    (((i : ℤ) + 1) % (n : ℤ)).toNat = if i = n - 1 then 0 else i + 1 := by
  rcases eq_or_ne i (n - 1) with h0 | h1
  · subst h0
    rw [if_pos rfl, show ((n - 1 : ℕ) : ℤ) + 1 = (n : ℤ) by omega, Int.emod_self]
    rfl
  · rw [if_neg h1, Int.emod_eq_of_lt (by omega) (by omega)]
    omega

lemma row_getD_length (L : Lattice) (n i : ℕ) (hlen : L.length = n)
    (hrows : ∀ row ∈ L, row.length = n) (hi : i < n) :
    (L.getD i []).length = n := by
  have hlt : i < L.length := by omega
  rw [List.getD_eq_getElem L [] hlt]
  exact hrows _ (List.getElem_mem hlt)

lemma pyGet_nat_col (L : Lattice) (a : ℤ) (j : ℕ) :
    pyGet L a (j : ℤ) = (pyRow L a).getD j 0 := by
  rw [pyGet, pyIdx_natCast]

/-- C2: `nearest_neighbours` returns, in order, the spins at
`((i-1) mod n, j)`, `((i+1) mod n, j)`, `(i, (j-1) mod n)` and
`(i, (j+1) mod n)` (top, bottom, left, right under toroidal wrap). -/
theorem C2_nearest_neighbours_wraparound (L : Lattice) (n i j : ℕ)
    (hlen : L.length = n) (hrows : ∀ row ∈ L, row.length = n)
    (hn : 1 ≤ n) (hi : i < n) (hj : j < n) :
    nearest_neighbours L i j =
      [cell L ((((i : ℤ) - 1) % (n : ℤ)).toNat) j,
       cell L ((((i : ℤ) + 1) % (n : ℤ)).toNat) j,
       cell L i ((((j : ℤ) - 1) % (n : ℤ)).toNat),
       cell L i ((((j : ℤ) + 1) % (n : ℤ)).toNat)] := by
  have hrowlen : (L.getD i []).length = n := row_getD_length L n i hlen hrows hi
  have hshape1 : shape1 L = n := by
    rcases L with _ | ⟨r, t⟩
    · simp at hlen; omega
    · simpa [shape1] using hrows r (by simp)
  have htop : pyGet L ((i : ℤ) - 1) (j : ℤ) =
      cell L ((((i : ℤ) - 1) % (n : ℤ)).toNat) j := by
    rw [pyGet_nat_col, pyRow, hlen, pyIdx_pred_mod n i hn hi, cell]
  have hbot : (if i = shape0 L - 1 then pyGet L 0 (j : ℤ)
        else pyGet L ((i : ℤ) + 1) (j : ℤ)) =
      cell L ((((i : ℤ) + 1) % (n : ℤ)).toNat) j := by
    rw [shape0, hlen, succ_mod_toNat n i hn hi]
    rcases eq_or_ne i (n - 1) with h0 | h1
    · rw [if_pos h0, if_pos h0, pyGet_nat_col, pyRow, hlen,
        show (0 : ℤ) = ((0 : ℕ) : ℤ) by norm_num, pyIdx_natCast, cell]
    · rw [if_neg h1, if_neg h1, pyGet_nat_col, pyRow, hlen,
        show (i : ℤ) + 1 = ((i + 1 : ℕ) : ℤ) by omega, pyIdx_natCast, cell]
  have hleft : pyGet L (i : ℤ) ((j : ℤ) - 1) =
      cell L i ((((j : ℤ) - 1) % (n : ℤ)).toNat) := by
    rw [pyGet, pyRow, hlen, pyIdx_natCast, hrowlen,
      pyIdx_pred_mod n j hn hj, cell]
  have hright : (if j = shape1 L - 1 then pyGet L (i : ℤ) 0
        else pyGet L (i : ℤ) ((j : ℤ) + 1)) =
      cell L i ((((j : ℤ) + 1) % (n : ℤ)).toNat) := by
    rw [hshape1, succ_mod_toNat n j hn hj]
    rcases eq_or_ne j (n - 1) with h0 | h1
    · rw [if_pos h0, if_pos h0, pyGet, pyRow, hlen, pyIdx_natCast, hrowlen,
        show (0 : ℤ) = ((0 : ℕ) : ℤ) by norm_num, pyIdx_natCast, cell]
    · rw [if_neg h1, if_neg h1, pyGet, pyRow, hlen, pyIdx_natCast, hrowlen,
        show (j : ℤ) + 1 = ((j + 1 : ℕ) : ℤ) by omega, pyIdx_natCast, cell]
  simp only [nearest_neighbours]
  rw [htop, hbot, hleft, hright]

/-- A fixed 3×3 test lattice. -/
def testLat : Lattice := [[1, -1, 1], [-1, 1, -1], [1, 1, -1]]

/-- Witness for C2: the wraparound equation at site `(0, 0)` of a
concrete 3×3 lattice. -/
theorem C2_nearest_neighbours_wraparound_witness :
    testLat.length = 3 ∧ (∀ row ∈ testLat, row.length = 3) ∧
    1 ≤ 3 ∧ 0 < 3 ∧ 0 < 3 ∧
    nearest_neighbours testLat 0 0 =
      [cell testLat ((((0 : ℤ) - 1) % (3 : ℤ)).toNat) 0,
       cell testLat ((((0 : ℤ) + 1) % (3 : ℤ)).toNat) 0,
       cell testLat 0 ((((0 : ℤ) - 1) % (3 : ℤ)).toNat),
       cell testLat 0 ((((0 : ℤ) + 1) % (3 : ℤ)).toNat)] :=
  ⟨rfl, by decide, by norm_num, by norm_num, by norm_num,
   C2_nearest_neighbours_wraparound testLat 3 0 0 rfl (by decide)
     (by norm_num) (by norm_num) (by norm_num)⟩

/-! ### Sweep helper lemmas -/

lemma setCell_nil (i j : ℕ) (v : ℚ) : setCell [] i j v = [] := by
  simp [setCell]

lemma pyGet_mem_pm (L : Lattice) (n : ℕ) (hOK : latticeOK n L) (i j : ℕ)
    (hi : i < n) (hj : j < n) :
    pyGet L (i : ℤ) (j : ℤ) = 1 ∨ pyGet L (i : ℤ) (j : ℤ) = -1 := by
  obtain ⟨hlen, hrows, hcells⟩ := hOK
  rw [pyGet_nat_col, pyRow, pyIdx_natCast]
  have hlt : i < L.length := by omega
  have hrowmem : L.getD i [] ∈ L := by
    rw [List.getD_eq_getElem L [] hlt]
    exact List.getElem_mem hlt
  have hrlen : (L.getD i []).length = n := hrows _ hrowmem
  have hjlt : j < (L.getD i []).length := by omega
  have hmem : (L.getD i []).getD j 0 ∈ L.getD i [] := by
    rw [List.getD_eq_getElem _ 0 hjlt]
    exact List.getElem_mem hjlt
  exact hcells _ hrowmem _ hmem

lemma setCell_latticeOK (L : Lattice) (n i j : ℕ) (v : ℚ)
    (hOK : latticeOK n L) (hi : i < n) (hv : v = 1 ∨ v = -1) :
    latticeOK n (setCell L i j v) := by
  obtain ⟨hlen, hrows, hcells⟩ := hOK
  have hlt : i < L.length := by omega
  have hrowmem : L.getD i [] ∈ L := by
    rw [List.getD_eq_getElem L [] hlt]
    exact List.getElem_mem hlt
  refine ⟨by simp [setCell, hlen], ?_, ?_⟩
  · intro row hrow
    rcases List.mem_or_eq_of_mem_set hrow with hmem | heq
    · exact hrows _ hmem
    · subst heq
      rw [List.length_set]
      exact hrows _ hrowmem
  · intro row hrow c hc
    rcases List.mem_or_eq_of_mem_set hrow with hmem | heq
    · exact hcells _ hmem _ hc
    · subst heq
      rcases List.mem_or_eq_of_mem_set hc with hcm | hceq
      · exact hcells _ hrowmem _ hcm
      · subst hceq
        exact hv

lemma if_flip_form (P r : ℝ) (A B : Lattice) (s q : ℕ) :
    (if P = 1 then Except.ok (⟨A, s, q⟩ : UpdState)
     else if P > r then Except.ok (⟨A, s, q + 1⟩ : UpdState)
     else Except.ok (⟨B, s, q + 1⟩ : UpdState)) =
    (Except.ok (⟨if P = 1 ∨ P > r then A else B, s,
      if P = 1 then q else q + 1⟩ : UpdState) :
        Except UpdState UpdState) := by
  by_cases h1 : P = 1
  · rw [if_pos h1, if_pos (Or.inl h1), if_pos h1]
  · by_cases h2 : P > r
    · rw [if_neg h1, if_pos h2, if_pos (Or.inr h2), if_neg h1]
    · rw [if_neg h1, if_neg h2, if_neg (not_or.mpr ⟨h1, h2⟩), if_neg h1]

/-- The behaviour of one trial iteration for a recognised `magtype`:
the probed site, the energy difference of a flip, the flip condition and
the stream consumption, in closed form. -/
lemma update_step_eq (T : ℝ) (h : ℚ) (mt : String) (J : ℚ)
    (hJ : magJ mt = some J) (sites : ℕ → ℕ) (rands : ℕ → ℝ) (st : UpdState) :
    update_step T h mt sites rands st =
      Except.ok
        (let n := shape0 st.lat
         let i := sites st.si % n
         let j := sites (st.si + 1) % n
         let particle := pyGet st.lat (i : ℤ) (j : ℤ)
         let del_E : ℚ :=
           2 * J * particle * (nearest_neighbours st.lat i j).sum +
             2 * h * particle
         ⟨if p_flip T (del_E : ℝ) = 1 ∨ p_flip T (del_E : ℝ) > rands st.ri
            then setCell st.lat i j (-1 * particle) else st.lat,
          st.si + 2,
          if p_flip T (del_E : ℝ) = 1 then st.ri else st.ri + 1⟩) := by
  unfold update_step
  simp only [ham_calc_eq_some mt J hJ]
  have hd : ∀ particle S : ℚ,
      (-J * (-1 * particle) * S - h * (-1 * particle)) -
        (-J * particle * S - h * particle) =
      2 * J * particle * S + 2 * h * particle := by
    intro particle S
    ring
  rw [hd]
  exact if_flip_form _ _ _ _ _ _

lemma update_step_ok (T : ℝ) (h : ℚ) (mt : String) (J : ℚ)
    (hJ : magJ mt = some J) (sites : ℕ → ℕ) (rands : ℕ → ℝ) (n : ℕ)
    (st : UpdState) (hOK : latticeOK n st.lat) :
    ∃ st' : UpdState, update_step T h mt sites rands st = Except.ok st' ∧
      latticeOK n st'.lat ∧ st'.si = st.si + 2 := by
  rw [update_step_eq T h mt J hJ sites rands st]
  refine ⟨_, rfl, ?_, rfl⟩
  dsimp only
  rcases Nat.eq_zero_or_pos n with hn0 | hnpos
  · subst hn0
    have hnil : st.lat = [] := List.length_eq_zero.mp hOK.1
    split_ifs
    · rw [hnil, setCell_nil]
      rw [hnil] at hOK
      exact hOK
    · exact hOK
  · have hshape : shape0 st.lat = n := hOK.1
    rw [hshape]
    split_ifs
    · have hpm := pyGet_mem_pm st.lat n hOK (sites st.si % n)
        (sites (st.si + 1) % n) (Nat.mod_lt _ hnpos) (Nat.mod_lt _ hnpos)
      apply setCell_latticeOK st.lat n _ _ _ hOK (Nat.mod_lt _ hnpos)
      rcases hpm with hp | hp <;> rw [hp] <;> norm_num
    · exact hOK

lemma update_iter_ok (T : ℝ) (h : ℚ) (mt : String) (J : ℚ)
    (hJ : magJ mt = some J) (sites : ℕ → ℕ) (rands : ℕ → ℝ) (n : ℕ) :
    ∀ (k : ℕ) (st : UpdState), latticeOK n st.lat →
      ∃ st', update_iter T h mt sites rands k st = Except.ok st' ∧
        latticeOK n st'.lat := by
  intro k
  induction k with
  | zero => exact fun st h0 => ⟨st, rfl, h0⟩
  | succ k ih =>
    intro st h0
    obtain ⟨st1, hst1, hOK1, _⟩ := update_step_ok T h mt J hJ sites rands n st h0
    obtain ⟨st', hst', hOK'⟩ := ih st1 hOK1
    refine ⟨st', ?_, hOK'⟩
    have hrw : update_iter T h mt sites rands (k + 1) st =
        match update_step T h mt sites rands st with
        | Except.ok st' => update_iter T h mt sites rands k st'
        | Except.error e => Except.error e := rfl
    rw [hrw, hst1]
    exact hst'

lemma update_lattice_ok (sites : ℕ → ℕ) (rands : ℕ → ℝ) (L : Lattice)
    (T : ℝ) (h : ℚ) (mt : String) (J : ℚ) (hJ : magJ mt = some J) (n : ℕ)
    (hOK : latticeOK n L) :
    ∃ L', update_lattice sites rands L T h mt = Except.ok L' ∧
      latticeOK n L' := by
  obtain ⟨st', hst', hOK'⟩ := update_iter_ok T h mt J hJ sites rands n
    (shape0 L * shape0 L * 2) ⟨L, 0, 0⟩ hOK
  refine ⟨st'.lat, ?_, hOK'⟩
  simp only [update_lattice]
  rw [hst']
  rfl

lemma run_sweeps_ok (sitesF : ℕ → ℕ → ℕ) (randsF : ℕ → ℕ → ℝ) (T : ℝ)
    (h : ℚ) (mt : String) (J : ℚ) (hJ : magJ mt = some J) (n : ℕ) :
    ∀ (k : ℕ) (L : Lattice), latticeOK n L →
      ∃ L', run_sweeps sitesF randsF T h mt k L = Except.ok L' ∧
        latticeOK n L' := by
  intro k
  induction k with
  | zero => exact fun L h0 => ⟨L, rfl, h0⟩
  | succ k ih =>
    intro L h0
    obtain ⟨L1, hL1, hOK1⟩ :=
      update_lattice_ok (sitesF k) (randsF k) L T h mt J hJ n h0
    obtain ⟨L', hL', hOK'⟩ := ih L1 hOK1
    refine ⟨L', ?_, hOK'⟩
    have hrw : run_sweeps sitesF randsF T h mt (k + 1) L =
        match update_lattice (sitesF k) (randsF k) L T h mt with
        | Except.ok L' => run_sweeps sitesF randsF T h mt k L'
        | Except.error e => Except.error e := rfl
    rw [hrw, hL1]
    exact hL'

/-! ### C5 -/

/-- C5: starting from an n×n lattice of `±1` spins, any number of
`update_lattice` calls (with `T > 0`, any `h`, any recognised `magtype`,
any random draws) succeeds and leaves every cell in `{+1, -1}` and the
shape n×n. -/
theorem C5_sweep_invariant (n : ℕ) (L : Lattice) (hOK : latticeOK n L)
    (T : ℝ) (_hT : 0 < T) (h : ℚ) (mt : String) (J : ℚ)
    (hJ : magJ mt = some J) (sitesF : ℕ → ℕ → ℕ) (randsF : ℕ → ℕ → ℝ)
    (k : ℕ) :
    ∃ L', run_sweeps sitesF randsF T h mt k L = Except.ok L' ∧
      latticeOK n L' :=
  run_sweeps_ok sitesF randsF T h mt J hJ n k L hOK

/-- Witness for C5: three sweeps of a 2×2 checkerboard at `T = 1`. -/
theorem C5_sweep_invariant_witness :
    latticeOK 2 [[1, -1], [-1, 1]] ∧ (0 : ℝ) < 1 ∧ magJ "ferro" = some 1 ∧
    ∃ L', run_sweeps (fun _ _ => 0) (fun _ _ => 0) 1 0 "ferro" 3
        [[1, -1], [-1, 1]] = Except.ok L' ∧ latticeOK 2 L' :=
  ⟨by decide, by norm_num, rfl,
   C5_sweep_invariant 2 [[1, -1], [-1, 1]] (by decide) 1 (by norm_num) 0
     "ferro" 1 rfl (fun _ _ => 0) (fun _ _ => 0) 3⟩

/-! ### C4 -/

/-- C4: one `update_lattice` call performs exactly `2 * n * n` trial
iterations; each iteration draws `i` and `j` as consecutive site-stream
draws reduced into `[0, n)`, computes the flip energy difference
`del_E = 2*J*spin*(sum of neighbours) + 2*h*spin`, and flips the spin
exactly when the acceptance probability is `1.0` or exceeds the fresh
uniform draw (which is consumed only when the probability is not `1.0`). -/
theorem C4_sweep_structure (sites : ℕ → ℕ) (rands : ℕ → ℝ) (L : Lattice)
    (T : ℝ) (h : ℚ) (mt : String) (st : UpdState) :
    update_lattice sites rands L T h mt =
      (update_iter T h mt sites rands (2 * (shape0 L * shape0 L))
        ⟨L, 0, 0⟩).map (fun s => s.lat) ∧
    update_step T h "ferro" sites rands st =
      Except.ok
        (let n := shape0 st.lat
         let i := sites st.si % n
         let j := sites (st.si + 1) % n
         let particle := pyGet st.lat (i : ℤ) (j : ℤ)
         let del_E : ℚ :=
           2 * 1 * particle * (nearest_neighbours st.lat i j).sum +
             2 * h * particle
         ⟨if p_flip T (del_E : ℝ) = 1 ∨ p_flip T (del_E : ℝ) > rands st.ri
            then setCell st.lat i j (-1 * particle) else st.lat,
          st.si + 2,
          if p_flip T (del_E : ℝ) = 1 then st.ri else st.ri + 1⟩) ∧
    update_step T h "antiferro" sites rands st =
      Except.ok
        (let n := shape0 st.lat
         let i := sites st.si % n
         let j := sites (st.si + 1) % n
         let particle := pyGet st.lat (i : ℤ) (j : ℤ)
         let del_E : ℚ :=
           2 * (-1) * particle * (nearest_neighbours st.lat i j).sum +
             2 * h * particle
         ⟨if p_flip T (del_E : ℝ) = 1 ∨ p_flip T (del_E : ℝ) > rands st.ri
            then setCell st.lat i j (-1 * particle) else st.lat,
          st.si + 2,
          if p_flip T (del_E : ℝ) = 1 then st.ri else st.ri + 1⟩) := by
  refine ⟨?_, update_step_eq T h "ferro" 1 rfl sites rands st,
    update_step_eq T h "antiferro" (-1) rfl sites rands st⟩
  simp only [update_lattice]
  rw [Nat.mul_comm (shape0 L * shape0 L) 2]

/-! ### C3 -/

/-- C3: for every `T > 0`, `p_flip` returns exactly `1.0` when
`del_E < 0` and `exp (-del_E / T)` otherwise; consequently it equals
`1.0` for every `del_E ≤ 0`, regardless of `T`. -/
theorem C3_p_flip_downhill (T del_E : ℝ) (_hT : 0 < T) :
    (del_E < 0 → p_flip T del_E = 1) ∧
    (¬ del_E < 0 → p_flip T del_E = Real.exp (-del_E / T)) ∧
    (del_E ≤ 0 → p_flip T del_E = 1) := by
  refine ⟨fun hlt => by simp [p_flip, hlt], fun hge => ?_, fun hle => ?_⟩
  · simp only [p_flip, if_neg hge]
    rw [show (-1 : ℝ) * del_E / ((1 : ℝ) * T) = -del_E / T by ring]
  · rcases lt_or_eq_of_le hle with hlt | heq
    · simp [p_flip, hlt]
    · subst heq
      simp [p_flip, Real.exp_zero]

/-- Witness for C3 at `T = 1`, `del_E = -1`. -/
theorem C3_p_flip_downhill_witness :
    (0 : ℝ) < 1 ∧
    (((-1 : ℝ) < 0 → p_flip 1 (-1) = 1) ∧
     (¬ (-1 : ℝ) < 0 → p_flip 1 (-1) = Real.exp (-(-1) / 1)) ∧
     ((-1 : ℝ) ≤ 0 → p_flip 1 (-1) = 1)) :=
  ⟨by norm_num, C3_p_flip_downhill 1 (-1) (by norm_num)⟩

/-! ### C8 -/

/-- C8: for fixed `del_E > 0`, the acceptance probability
`p_flip T del_E = exp (-del_E / T)` is strictly increasing in `T` on
`T > 0`, tends to `1` as `T → ∞` and to `0` as `T → 0+`. -/
theorem C8_p_flip_monotone_in_T (del_E : ℝ) (hpos : 0 < del_E) :
    StrictMonoOn (fun T => p_flip T del_E) (Set.Ioi (0 : ℝ)) ∧
    Filter.Tendsto (fun T => p_flip T del_E) Filter.atTop (nhds 1) ∧
    Filter.Tendsto (fun T => p_flip T del_E)
      (nhdsWithin 0 (Set.Ioi 0)) (nhds 0) := by
  have hfun : ∀ T : ℝ, p_flip T del_E = Real.exp (-(del_E / T)) := by
    intro T
    simp only [p_flip, if_neg (not_lt.mpr hpos.le)]
    rw [show (-1 : ℝ) * del_E / ((1 : ℝ) * T) = -(del_E / T) by ring]
  refine ⟨?_, ?_, ?_⟩
  · intro T1 h1 T2 h2 hlt
    simp only [hfun]
    apply Real.exp_lt_exp.mpr
    apply neg_lt_neg
    exact div_lt_div_of_pos_left hpos h1 hlt
  · have h1 : Filter.Tendsto (fun T : ℝ => del_E / T) Filter.atTop (nhds 0) := by
      simpa [div_eq_mul_inv] using tendsto_inv_atTop_zero.const_mul del_E
    have h2 : Filter.Tendsto (fun T : ℝ => -(del_E / T)) Filter.atTop (nhds 0) := by
      simpa using h1.neg
    have h3 := (Real.continuous_exp.tendsto 0).comp h2
    simp only [hfun]
    simpa [Function.comp, Real.exp_zero] using h3
  · have h3 : Filter.Tendsto (fun T : ℝ => del_E / T)
        (nhdsWithin 0 (Set.Ioi 0)) Filter.atTop := by
      simpa [div_eq_mul_inv] using tendsto_inv_zero_atTop.const_mul_atTop hpos
    have h4 := Filter.tendsto_neg_atTop_atBot.comp h3
    have h5 := Real.tendsto_exp_atBot.comp h4
    simp only [hfun]
    exact h5

/-- Witness for C8 at `del_E = 1`. -/
theorem C8_p_flip_monotone_in_T_witness :
    (0 : ℝ) < 1 ∧
    (StrictMonoOn (fun T => p_flip T 1) (Set.Ioi (0 : ℝ)) ∧
     Filter.Tendsto (fun T => p_flip T 1) Filter.atTop (nhds 1) ∧
     Filter.Tendsto (fun T => p_flip T 1)
       (nhdsWithin 0 (Set.Ioi 0)) (nhds 0)) :=
  ⟨by norm_num, C8_p_flip_monotone_in_T 1 (by norm_num)⟩

/-! ### C6 -/

lemma update_lattice_invalid (sites : ℕ → ℕ) (rands : ℕ → ℝ) (L : Lattice)
    (T : ℝ) (h : ℚ) (mt : String) (hmt : magJ mt = none)
    (hn : 1 ≤ shape0 L) :
    update_lattice sites rands L T h mt = Except.error ⟨L, 2, 0⟩ := by
  have hstep : update_step T h mt sites rands ⟨L, 0, 0⟩ =
      Except.error ⟨L, 0 + 2, 0⟩ := by
    unfold update_step
    simp only [ham_calc_eq_none hmt]
  have hk : shape0 L * shape0 L * 2 = (shape0 L * shape0 L * 2 - 1) + 1 := by
    have : 1 ≤ shape0 L * shape0 L * 2 := by nlinarith
    omega
  simp only [update_lattice]
  rw [hk]
  have hrw : update_iter T h mt sites rands ((shape0 L * shape0 L * 2 - 1) + 1)
        ⟨L, 0, 0⟩ =
      match update_step T h mt sites rands ⟨L, 0, 0⟩ with
      | Except.ok st' =>
        update_iter T h mt sites rands (shape0 L * shape0 L * 2 - 1) st'
      | Except.error e => Except.error e := rfl
  rw [hrw, hstep]
  rfl

/-- C6 counterexample: with an unrecognised `magtype`, `update_lattice`
on the 1×1 lattice `[[1]]` does fail with the lattice unmutated, but the
error state records site-stream position `2`: the first iteration's two
random site draws were consumed before the failure, contradicting
"before any random draws are consumed". -/
theorem C6_draws_consumed_counterexample :
    update_lattice (fun _ => 0) (fun _ => 0) [[1]] 1 0 "paramagnetic" =
      Except.error ⟨[[1]], 2, 0⟩ ∧ (2 : ℕ) ≠ 0 :=
  ⟨update_lattice_invalid (fun _ => 0) (fun _ => 0) [[1]] 1 0 "paramagnetic"
      (by decide) (by decide),
   by decide⟩

/-- C6 (amended): an unrecognised `magtype` makes `ham_calc` itself fail,
and makes `update_lattice` on a nonempty lattice fail during its first
trial iteration — before any lattice cell is mutated and before any
uniform `[0,1)` draw, but after that iteration's two random site-index
draws have been consumed. -/
theorem C6_invalid_magtype_fails (sites : ℕ → ℕ) (rands : ℕ → ℝ)
    (L : Lattice) (T : ℝ) (h : ℚ) (mt : String) (p : ℚ) (nb : List ℚ)
    (hh : ℚ) (hmt : magJ mt = none) (hn : 1 ≤ shape0 L) :
    ham_calc p nb hh mt = none ∧
    update_lattice sites rands L T h mt = Except.error ⟨L, 2, 0⟩ :=
  ⟨ham_calc_eq_none hmt p nb hh,
   update_lattice_invalid sites rands L T h mt hmt hn⟩

/-- Witness for C6 (amended) at `magtype = "x"` on the lattice `[[1]]`. -/
theorem C6_invalid_magtype_fails_witness :
    magJ "x" = none ∧ 1 ≤ shape0 [[1]] ∧
    (ham_calc 1 [1, 1, 1, 1] 0 "x" = none ∧
     update_lattice (fun _ => 0) (fun _ => 0) [[1]] 1 0 "x" =
       Except.error ⟨[[1]], 2, 0⟩) :=
  ⟨by decide, by decide,
   C6_invalid_magtype_fails (fun _ => 0) (fun _ => 0) [[1]] 1 0 "x" 1
     [1, 1, 1, 1] 0 (by decide) (by decide)⟩

/-! ### C7 -/

lemma foldl_plain_sum (l : List ℚ) (a : ℚ) :
    l.foldl (fun x y => x + y) a = a + l.sum := by
  induction l generalizing a with
  | nil => simp
  | cons x xs ih =>
    simp only [List.foldl_cons, List.sum_cons, ih]
    ring

lemma mag_fold (rows : List (List ℚ)) (a : ℚ) :
    rows.foldl (fun acc row => row.foldl (fun x y => x + y) acc) a =
      a + (rows.map List.sum).sum := by
  simp only [foldl_plain_sum]
  induction rows generalizing a with
  | nil => simp
  | cons r rs ih =>
    simp only [List.foldl_cons, List.map_cons, List.sum_cons, ih]
    ring

lemma pyIdx_lt (n : ℕ) (k : ℤ) (h1 : -(n : ℤ) ≤ k) (h2 : k < (n : ℤ)) :
    pyIdx n k < n := by
  unfold pyIdx
  split <;> omega

lemma pyGet_allOnes (n : ℕ) (a b : ℤ) (ha : pyIdx n a < n)
    (hb : pyIdx n b < n) : pyGet (allOnes n) a b = 1 := by
  have hlen : (allOnes n).length = n := by simp [allOnes]
  have hrow : pyRow (allOnes n) a = List.replicate n (1 : ℚ) := by
    rw [pyRow, hlen, List.getD_eq_getElem _ _ (by rw [hlen]; exact ha)]
    simp [allOnes]
  rw [pyGet, hrow, List.length_replicate,
    List.getD_eq_getElem _ _ (by rw [List.length_replicate]; exact hb)]
  simp

lemma nn_allOnes (n i j : ℕ) (hn : 1 ≤ n) (hi : i < n) (hj : j < n) :
    nearest_neighbours (allOnes n) i j = [1, 1, 1, 1] := by
  obtain ⟨m, rfl⟩ : ∃ m, n = m + 1 := ⟨n - 1, by omega⟩
  have hs0 : shape0 (allOnes (m + 1)) = m + 1 := by simp [allOnes, shape0]
  have hs1 : shape1 (allOnes (m + 1)) = m + 1 := by
    simp [allOnes, shape1, List.replicate_succ]
  simp only [nearest_neighbours, hs0, hs1]
  rw [pyGet_allOnes _ _ _ (pyIdx_lt _ _ (by omega) (by omega))
      (pyIdx_lt _ _ (by omega) (by omega))]
  split_ifs with hbi hri hri
  · rw [pyGet_allOnes _ _ _ (pyIdx_lt _ _ (by omega) (by omega))
        (pyIdx_lt _ _ (by omega) (by omega)),
      pyGet_allOnes _ _ _ (pyIdx_lt _ _ (by omega) (by omega))
        (pyIdx_lt _ _ (by omega) (by omega)),
      pyGet_allOnes _ _ _ (pyIdx_lt _ _ (by omega) (by omega))
        (pyIdx_lt _ _ (by omega) (by omega))]
  · rw [pyGet_allOnes _ _ _ (pyIdx_lt _ _ (by omega) (by omega))
        (pyIdx_lt _ _ (by omega) (by omega)),
      pyGet_allOnes _ _ _ (pyIdx_lt _ _ (by omega) (by omega))
        (pyIdx_lt _ _ (by omega) (by omega)),
      pyGet_allOnes _ _ _ (pyIdx_lt _ _ (by omega) (by omega))
        (pyIdx_lt _ _ (by omega) (by omega))]
  · rw [pyGet_allOnes _ _ _ (pyIdx_lt _ _ (by omega) (by omega))
        (pyIdx_lt _ _ (by omega) (by omega)),
      pyGet_allOnes _ _ _ (pyIdx_lt _ _ (by omega) (by omega))
        (pyIdx_lt _ _ (by omega) (by omega)),
      pyGet_allOnes _ _ _ (pyIdx_lt _ _ (by omega) (by omega))
        (pyIdx_lt _ _ (by omega) (by omega))]
  · rw [pyGet_allOnes _ _ _ (pyIdx_lt _ _ (by omega) (by omega))
        (pyIdx_lt _ _ (by omega) (by omega)),
      pyGet_allOnes _ _ _ (pyIdx_lt _ _ (by omega) (by omega))
        (pyIdx_lt _ _ (by omega) (by omega)),
      pyGet_allOnes _ _ _ (pyIdx_lt _ _ (by omega) (by omega))
        (pyIdx_lt _ _ (by omega) (by omega))]

lemma foldl_some_add (step : Option ℚ → ℕ → Option ℚ) (c : ℚ) :
    ∀ m : ℕ, (∀ (a : ℚ) (x : ℕ), x < m → step (some a) x = some (a + c)) →
      ∀ a : ℚ, (List.range m).foldl step (some a) = some (a + m * c) := by
  intro m
  induction m with
  | zero => intro _ a; simp
  | succ m ih =>
    intro hstep a
    rw [List.range_succ, List.foldl_append,
      ih (fun b x hx => hstep b x (by omega)) a]
    simp only [List.foldl_cons, List.foldl_nil]
    rw [hstep (a + m * c) m (by omega)]
    congr 1
    push_cast
    ring

/-- C7: the all `+1` lattice under `ferro`, `h = 0` has per-site
magnetisation exactly `1` and per-site energy exactly `-2` (sum of
`ham_calc` over all sites, halved for bond double-counting, divided
by `n^2`). -/
theorem C7_ground_state (n : ℕ) (hn : 1 ≤ n) :
    magnetisation (allOnes n) = (1, 1) ∧
    energy (allOnes n) 0 "ferro" = some (-2, 4) := by
  have hne : (n : ℚ) ≠ 0 := Nat.cast_ne_zero.mpr (by omega)
  have hlen : shape0 (allOnes n) = n := by simp [allOnes, shape0]
  constructor
  · simp only [magnetisation, hlen]
    rw [mag_fold]
    have hmag : (((allOnes n).map List.sum).sum : ℚ) = (n : ℚ) * n := by
      simp [allOnes, List.map_replicate, List.sum_replicate, nsmul_eq_mul]
    rw [hmag]
    have hv : ((0 : ℚ) + (n : ℚ) * n) / (n : ℚ) ^ 2 = 1 := by
      rw [zero_add, pow_two]
      exact div_self (mul_ne_zero hne hne)
    rw [hv]
    norm_num
  · have hham : ∀ i j : ℕ, i < n → j < n →
        ham_calc (pyGet (allOnes n) (i : ℤ) (j : ℤ))
          (nearest_neighbours (allOnes n) i j) 0 "ferro" = some (-4) := by
      intro i j hi hj
      rw [pyGet_allOnes n i j (by rw [pyIdx_natCast]; omega)
          (by rw [pyIdx_natCast]; omega),
        nn_allOnes n i j hn hi hj, ham_calc_eq_some "ferro" 1 rfl]
      norm_num [List.sum_cons, List.sum_nil]
    have hinner : ∀ i : ℕ, i < n → ∀ a : ℚ,
        (List.range n).foldl
          (fun acc2 (j : ℕ) => energyAdd (allOnes n) 0 "ferro" i j acc2)
          (some a) = some (a + (n : ℚ) * (-4)) := by
      intro i hi a
      apply foldl_some_add _ (-4) n ?_ a
      intro b x hx
      show energyAdd (allOnes n) 0 "ferro" i x (some b) = some (b + -4)
      unfold energyAdd
      rw [hham i x hi hx]
    have houter : (List.range n).foldl
        (fun acc (i : ℕ) => (List.range n).foldl
          (fun acc2 (j : ℕ) => energyAdd (allOnes n) 0 "ferro" i j acc2) acc)
        (some (0 : ℚ)) = some (0 + (n : ℚ) * ((n : ℚ) * (-4))) :=
      foldl_some_add _ ((n : ℚ) * (-4)) n (fun a x hx => hinner x hx a) 0
    simp only [energy, hlen]
    rw [houter]
    have hv : ((0 : ℚ) + (n : ℚ) * ((n : ℚ) * (-4))) / 2 / (n : ℚ) ^ 2 = -2 := by
      field_simp
      ring
    simp only [Option.map_some']
    rw [hv]
    norm_num

/-- Witness for C7 at `n = 2`. -/
theorem C7_ground_state_witness :
    1 ≤ 2 ∧
    (magnetisation (allOnes 2) = (1, 1) ∧
     energy (allOnes 2) 0 "ferro" = some (-2, 4)) :=
  ⟨by norm_num, C7_ground_state 2 (by norm_num)⟩

/-! ### C9 -/

/-- `magnetisation` with the lattice threaded through every loop step as
mutable state, mirroring the imperative reading of the source: the loop
body only reads cells, so the state component is passed along unchanged. -/
def magnetisation_run (lattice : Lattice) : (ℚ × ℚ) × Lattice :=
  let n := shape0 lattice
  let s := lattice.foldl
    (fun (st : ℚ × Lattice) row => (row.foldl (fun x y => x + y) st.1, st.2))
    ((0 : ℚ), lattice)
  let mag_persite := s.1 / (n : ℚ) ^ 2
  ((mag_persite, mag_persite ^ 2), s.2)

/-- The accumulation step of `energy` with the lattice threaded through
as mutable state; every lattice access reads from the threaded state. -/
def energyAdd_run (h : ℚ) (magtype : String) (i j : ℕ)
    (acc : Option (ℚ × Lattice)) : Option (ℚ × Lattice) :=
  match acc with
  | none => none
  | some (a, lat) =>
    match ham_calc (pyGet lat (i : ℤ) (j : ℤ)) (nearest_neighbours lat i j)
        h magtype with
    | some v => some (a + v, lat)
    | none => none

/-- `energy` with the lattice threaded through every loop step as
mutable state. -/
def energy_run (lattice : Lattice) (h : ℚ) (magtype : String := "ferro") :
    Option ((ℚ × ℚ) × Lattice) :=
  let n := shape0 lattice
  let s := (List.range n).foldl (fun acc (i : ℕ) =>
    (List.range n).foldl (fun acc2 (j : ℕ) => energyAdd_run h magtype i j acc2)
      acc) (some ((0 : ℚ), lattice))
  s.map (fun p =>
    let e_persite := p.1 / 2 / (n : ℚ) ^ 2
    ((e_persite, e_persite ^ 2), p.2))

lemma mag_run_fold (rows : List (List ℚ)) (a : ℚ) (M : Lattice) :
    rows.foldl
        (fun (st : ℚ × Lattice) row =>
          (row.foldl (fun x y => x + y) st.1, st.2)) (a, M) =
      (rows.foldl (fun acc row => row.foldl (fun x y => x + y) acc) a, M) := by
  induction rows generalizing a with
  | nil => rfl
  | cons r rs ih =>
    simp only [List.foldl_cons]
    exact ih (r.foldl (fun x y => x + y) a)

lemma inner_sim (L : Lattice) (h : ℚ) (mt : String) (i : ℕ) (l : List ℕ) :
    ∀ acc : Option ℚ,
      l.foldl (fun acc2 (j : ℕ) => energyAdd_run h mt i j acc2)
          (acc.map (fun a => (a, L))) =
        (l.foldl (fun acc2 (j : ℕ) => energyAdd L h mt i j acc2) acc).map
          (fun a => (a, L)) := by
  induction l with
  | nil => intro acc; rfl
  | cons x xs ih =>
    intro acc
    simp only [List.foldl_cons]
    have hstep : energyAdd_run h mt i x (acc.map (fun a => (a, L))) =
        (energyAdd L h mt i x acc).map (fun a => (a, L)) := by
      rcases acc with _ | a
      · rfl
      · unfold energyAdd energyAdd_run
        rcases hham : ham_calc (pyGet L (i : ℤ) (x : ℤ))
            (nearest_neighbours L i x) h mt with _ | v <;> simp [hham]
    rw [hstep]
    exact ih (energyAdd L h mt i x acc)

lemma outer_sim (L : Lattice) (h : ℚ) (mt : String) (n : ℕ) (l : List ℕ) :
    ∀ acc : Option ℚ,
      l.foldl (fun acc (i : ℕ) => (List.range n).foldl
          (fun acc2 (j : ℕ) => energyAdd_run h mt i j acc2) acc)
          (acc.map (fun a => (a, L))) =
        (l.foldl (fun acc (i : ℕ) => (List.range n).foldl
          (fun acc2 (j : ℕ) => energyAdd L h mt i j acc2) acc) acc).map
          (fun a => (a, L)) := by
  induction l with
  | nil => intro acc; rfl
  | cons x xs ih =>
    intro acc
    simp only [List.foldl_cons]
    rw [inner_sim L h mt x (List.range n) acc]
    exact ih _

/-- C9: `magnetisation` and `energy` never mutate the lattice — the
state-threaded renderings return the input lattice unchanged and agree
with the pure functions — and recomputing on the returned (unmodified)
lattice yields an identical result. -/
theorem C9_observables_read_only (L : Lattice) (h : ℚ) (mt : String) :
    magnetisation_run L = (magnetisation L, L) ∧
    energy_run L h mt = (energy L h mt).map (fun r => (r, L)) ∧
    (magnetisation_run ((magnetisation_run L).2)).1 =
      (magnetisation_run L).1 := by
  have hmag : magnetisation_run L = (magnetisation L, L) := by
    simp only [magnetisation_run, magnetisation]
    rw [mag_run_fold]
  refine ⟨hmag, ?_, ?_⟩
  · simp only [energy_run, energy]
    rw [show (some ((0 : ℚ), L)) = (some (0 : ℚ)).map (fun a => (a, L))
        from rfl,
      outer_sim L h mt (shape0 L) (List.range (shape0 L)) (some 0)]
    rw [Option.map_map, Option.map_map]
    rfl
  · rw [hmag]
    show (magnetisation_run L).1 = magnetisation L
    rw [hmag]

end Ising
